import Mathlib

/-!
Shallow embedding of the TxRadar10 core (Rust) for checking its
natural-language specification.

Floating-point (`f64`) quantities are modelled as exact rationals (`ℚ`);
machine integers (`u64`, `usize`, `u32`) as `Nat` (the operations involved
are subtraction-saturating or bounded, so no wraparound arises); `i64`
timestamps as `Int`.  Fallible lookups are `Option`.  Each definition is
annotated with the source location it embeds.
-/

namespace TxRadar

/-! ## Pipeline fee computation (src/core/pipeline.rs) -/

/-- Outcome of resolving one transaction input in
`resolve_all_prevouts` (src/core/pipeline.rs): a coinbase input is
skipped silently, a failed RPC/cache lookup is skipped, and a resolved
input contributes its prevout value in satoshis. -/
inductive InputRes where
  | coinbase : InputRes
  | failed : InputRes
  | resolved (value : Nat) : InputRes
deriving DecidableEq

/-- Sum of the resolved prevout values
(`total_input_value` accumulation in `resolve_all_prevouts`). -/
def totalInputValue : List InputRes → Nat
  | [] => 0
  | .resolved v :: rest => v + totalInputValue rest
  | _ :: rest => totalInputValue rest

/-- Number of successfully resolved inputs
(`resolved_count` in `resolve_all_prevouts`). -/
def resolvedCount : List InputRes → Nat
  | [] => 0
  | .resolved _ :: rest => 1 + resolvedCount rest
  | _ :: rest => resolvedCount rest

/-- Flag `prevouts_resolved = (resolved_count == input_count)` computed in
`run_pipeline` (src/core/pipeline.rs line 213); `input_count` is the full
input list length, coinbase inputs included. -/
def prevoutsResolved (inputs : List InputRes) : Bool :=
  resolvedCount inputs == inputs.length

/-- Fee computation of `run_pipeline` (src/core/pipeline.rs lines 218-222):
`if total_input_value > 0 { total_input_value.saturating_sub(total_output_value) } else { 0 }`.
`u64::saturating_sub` coincides with truncated `Nat` subtraction. -/
def computeFee (totalIn totalOut : Nat) : Nat :=
  if 0 < totalIn then totalIn - totalOut else 0

/-- Fee-rate computation of `run_pipeline` (src/core/pipeline.rs lines 223-227):
`if total_input_value > 0 && tx_vsize > 0 { fee as f64 / tx_vsize as f64 } else { 0.0 }`. -/
def computeFeeRate (totalIn fee vsize : Nat) : ℚ :=
  if 0 < totalIn ∧ 0 < vsize then (fee : ℚ) / (vsize : ℚ) else 0

/-! ## Scoring (src/signals/score.rs, src/signals/rules.rs, src/signals/mod.rs) -/

/-- Rust `f64::clamp(lo, hi)` on exact rationals: below `lo` gives `lo`,
above `hi` gives `hi`, otherwise the value itself. -/
def fclamp (x lo hi : ℚ) : ℚ :=
  if x < lo then lo else if hi < x then hi else x

/-- `RuleScore` (src/core/mod.rs): one rule's evaluation. -/
structure RuleScore where
  rule_name : String
  raw_value : ℚ
  weight : ℚ
  weighted_score : ℚ
deriving DecidableEq

/-- `compute_composite` (src/signals/score.rs lines 4-13): sum the weighted
scores, divide by the sum of absolute weights (0 if that sum is 0), scale
to 0-100 and clamp. -/
def compute_composite (scores : List RuleScore) : ℚ :=
  let total_weighted := (scores.map (fun s => s.weighted_score)).sum
  let max_possible := (scores.map (fun s => |s.weight|)).sum
  if max_possible = 0 then 0
  else fclamp (total_weighted / max_possible * 100) 0 100

/-- `AnalyzedTx` (src/core/mod.rs), with the `is_coinjoin` /
`coinjoin_confidence` fields that the scoring rules
(src/signals/rules.rs) read.  `f64` fields are rationals, timestamps are
integer unix seconds. -/
structure AnalyzedTx where
  txid : String
  raw_size : Nat
  vsize : Nat
  total_input_value : Nat
  total_output_value : Nat
  fee : Nat
  fee_rate : ℚ
  input_count : Nat
  output_count : Nat
  oldest_input_height : Option Nat
  oldest_input_time : Option Int
  coin_days_destroyed : Option ℚ
  is_rbf_signaling : Bool
  seen_at : Int
  prevouts_resolved : Bool
  to_exchange : Bool
  to_exchange_confidence : ℚ
  from_exchange : Bool
  from_exchange_confidence : ℚ
  is_coinjoin : Bool
  coinjoin_confidence : ℚ
deriving DecidableEq

/-- `TxValueRule::evaluate` (src/signals/rules.rs). -/
def txValueRaw (tx : AnalyzedTx) : ℚ :=
  let btc := (tx.total_input_value : ℚ) / 100000000
  1 - 1 / (1 + btc / 10)

/-- `UtxoAgeRule::evaluate` (src/signals/rules.rs); `now` is the current
unix time, `num_days` is seconds divided by 86400 truncated toward zero as
in chrono. -/
def utxoAgeRaw (now : Int) (tx : AnalyzedTx) : ℚ :=
  match tx.oldest_input_time with
  | some t =>
      let age_days : ℚ := ((Int.tdiv ((now - t)) 86400 : Int) : ℚ)
      1 - 1 / (1 + age_days / 365)
  | none => 0

/-- `CoinDaysDestroyedRule::evaluate` (src/signals/rules.rs). -/
def cddRaw (tx : AnalyzedTx) : ℚ :=
  match tx.coin_days_destroyed with
  | some cdd => 1 - 1 / (1 + cdd / 1000)
  | none => 0

/-- `InputCountRule::evaluate` (src/signals/rules.rs). -/
def inputCountRaw (tx : AnalyzedTx) : ℚ :=
  1 - 1 / (1 + (tx.input_count : ℚ) / 20)

/-- `FeeRateRule::evaluate` (src/signals/rules.rs). -/
def feeRateRaw (tx : AnalyzedTx) : ℚ :=
  1 - 1 / (1 + tx.fee_rate / 50)

/-- `RbfRule::evaluate` (src/signals/rules.rs). -/
def rbfRaw (tx : AnalyzedTx) : ℚ :=
  if tx.is_rbf_signaling then 1 / 2 else 0

/-- `CoinJoinRule::evaluate` (src/signals/rules.rs). -/
def coinjoinRaw (tx : AnalyzedTx) : ℚ :=
  if tx.is_coinjoin then fclamp tx.coinjoin_confidence 0 1 else 0

/-- `ExchangeFlowRule::evaluate` (src/signals/rules.rs). -/
def exchangeFlowRaw (tx : AnalyzedTx) : ℚ :=
  if tx.to_exchange then fclamp tx.to_exchange_confidence 0 1
  else if tx.from_exchange then -(fclamp tx.from_exchange_confidence 0 1 * (1 / 2))
  else 0

/-- One entry of the trait-object rule list (src/signals/rules.rs `Rule`):
name, default weight and evaluation function (taking the current time for
the age rule). -/
structure LRule where
  name : String
  default_weight : ℚ
  evaluate : Int → AnalyzedTx → ℚ

/-- `default_rules` (src/signals/rules.rs lines 12-23), in source order. -/
def default_rules : List LRule :=
  [⟨"tx_value", 6, fun _ tx => txValueRaw tx⟩,
   ⟨"utxo_age", 8, fun now tx => utxoAgeRaw now tx⟩,
   ⟨"cdd", 9, fun _ tx => cddRaw tx⟩,
   ⟨"input_count", 4, fun _ tx => inputCountRaw tx⟩,
   ⟨"fee_rate", 3, fun _ tx => feeRateRaw tx⟩,
   ⟨"rbf_flag", 2, fun _ tx => rbfRaw tx⟩,
   ⟨"exchange_flow", 10, fun _ tx => exchangeFlowRaw tx⟩,
   ⟨"coinjoin", -6, fun _ tx => coinjoinRaw tx⟩]

/-- The rule-score list built by `SignalEngine::score`
(src/signals/mod.rs lines 36-53): each rule is evaluated, its weight taken
from the override map when present (default weights otherwise), and
`weighted_score = raw_value * weight`. -/
def engineRuleScores (overrides : String → Option ℚ) (now : Int) (tx : AnalyzedTx) :
    List RuleScore :=
  default_rules.map (fun r =>
    let raw := r.evaluate now tx
    let w := (overrides r.name).getD r.default_weight
    ⟨r.name, raw, w, raw * w⟩)

/-- The composite score produced by `SignalEngine::score`
(src/signals/mod.rs line 55). -/
def engineComposite (overrides : String → Option ℚ) (now : Int) (tx : AnalyzedTx) : ℚ :=
  compute_composite (engineRuleScores overrides now tx)

/-! ## CoinJoin detector (src/signals/coinjoin.rs) -/

/-- `CoinJoinPattern` (src/signals/coinjoin.rs). -/
inductive CoinJoinPattern where
  | WhirlpoolPool : CoinJoinPattern
  | WasabiLike : CoinJoinPattern
  | EqualOutput : CoinJoinPattern
  | Unknown : CoinJoinPattern
deriving DecidableEq

/-- `CoinJoinResult` (src/signals/coinjoin.rs). -/
structure CoinJoinResult where
  is_coinjoin : Bool
  confidence : ℚ
  pattern : CoinJoinPattern
deriving DecidableEq

/-- `CoinJoinResult::default` (src/signals/coinjoin.rs lines 30-38). -/
def coinJoinDefault : CoinJoinResult :=
  ⟨false, 0, CoinJoinPattern.Unknown⟩

/-- `WHIRLPOOL_POOLS` (src/signals/coinjoin.rs lines 6-11), in satoshis. -/
def WHIRLPOOL_POOLS : List Nat := [100000, 1000000, 5000000, 50000000]

/-- One step of selecting the most frequent output value with at least 3
occurrences (the `filter(count >= 3).max_by_key(count)` of
src/signals/coinjoin.rs lines 61-66); on equal counts the later candidate
wins, as `max_by_key` returns the last maximum. -/
def bestStep (outputs : List Nat) (acc : Nat × Nat) (v : Nat) : Nat × Nat :=
  if 3 ≤ outputs.count v ∧ acc.2 ≤ outputs.count v then (v, outputs.count v) else acc

/-- The `(best_value, best_count)` pair of src/signals/coinjoin.rs lines
54-66: tally the output values and pick a most frequent one with count at
least 3, defaulting to `(0, 0)`.  The tally's `HashMap` iteration order is
unspecified in the source; this embedding ranges over the distinct output
values in a fixed order, which agrees with the source whenever the
maximum is unique. -/
def bestEqualOutput (outputs : List Nat) : Nat × Nat :=
  outputs.dedup.foldl (bestStep outputs) (0, 0)

/-- `detect_coinjoin` (src/signals/coinjoin.rs lines 44-117), over the
input count and the list of output values in satoshis. -/
def detect_coinjoin (inputCount : Nat) (outputs : List Nat) : CoinJoinResult :=
  if inputCount < 3 ∨ outputs.length < 3 then coinJoinDefault
  else
    let best_value := (bestEqualOutput outputs).1
    let best_count := (bestEqualOutput outputs).2
    if best_count < 3 then coinJoinDefault
    else if (best_count : ℚ) / (outputs.length : ℚ) ≤ 1 / 2 then coinJoinDefault
    else if best_count = 5 ∧ best_value ∈ WHIRLPOOL_POOLS ∧
        (5 ≤ inputCount ∧ 5 ≤ outputs.length) then
      ⟨true, 95 / 100, CoinJoinPattern.WhirlpoolPool⟩
    else if 5 ≤ best_count ∧ (5 ≤ inputCount ∧ 5 ≤ outputs.length) then
      ⟨true,
       if best_value % 100000 = 0 ∧ 0 < best_value then 85 / 100 else 75 / 100,
       if (best_value % 100000 = 0 ∧ 0 < best_value) ∧ 10 ≤ best_count then
         CoinJoinPattern.WasabiLike
       else CoinJoinPattern.EqualOutput⟩
    else if 7 / 10 < (best_count : ℚ) / (outputs.length : ℚ) ∧ 3 ≤ best_count then
      ⟨true, 1 / 2, CoinJoinPattern.EqualOutput⟩
    else coinJoinDefault

/-! ## Mempool state (src/core/mempool.rs) -/

/-- `TxState` (src/core/mempool.rs lines 7-13). -/
inductive TxState where
  | Pending : TxState
  | Confirmed : TxState
  | Replaced : TxState
  | Evicted : TxState
deriving DecidableEq

/-- `RemovalReason` (src/core/mod.rs lines 18-26). -/
inductive RemovalReason where
  | Confirmed : RemovalReason
  | Replaced : RemovalReason
  | Evicted : RemovalReason
  | Conflict : RemovalReason
  | Unknown : RemovalReason
deriving DecidableEq

/-- `MempoolEntry` (src/core/mempool.rs lines 15-24). -/
structure MempoolEntry where
  tx : AnalyzedTx
  state : TxState
  state_changed_at : Int
  replaced_by : Option String
deriving DecidableEq

/-- `MempoolState` (src/core/mempool.rs lines 36-42); the two `HashMap`s
are association lists keyed by txid hex string. -/
structure MempoolState where
  entries : List (String × MempoolEntry)
  replacement_chain : List (String × String)
deriving DecidableEq

/-- `f64::MAX`, the upper bound of the last histogram bucket in the
source, as an exact rational: `(2^53 − 1) · 2^971`. -/
def f64MAX : ℚ := (2 ^ 53 - 1) * 2 ^ 971

/-- `FEE_BUCKETS` (src/core/mempool.rs lines 27-34): half-open buckets
`(lo, hi, label)` in sat/vB. -/
def FEE_BUCKETS : List (ℚ × ℚ × String) :=
  [(0, 5, "1-5"), (5, 10, "5-10"), (10, 20, "10-20"),
   (20, 50, "20-50"), (50, 100, "50-100"), (100, f64MAX, "100+")]

/-- The inner bucket-scan of `fee_histogram` (src/core/mempool.rs lines
151-156): index of the first bucket with `lo ≤ rate < hi`, if any. -/
def bucketFor (rate : ℚ) : List (ℚ × ℚ × String) → Option Nat
  | [] => none
  | b :: rest =>
      if b.1 ≤ rate ∧ rate < b.2.1 then some 0
      else (bucketFor rate rest).map (fun i => i + 1)

/-- The pending entries of the state, as filtered by every statistic in
src/core/mempool.rs lines 120-163. -/
def pendingEntries (st : MempoolState) : List MempoolEntry :=
  (st.entries.map Prod.snd).filter (fun e => e.state = TxState.Pending)

/-- `pending_count` (src/core/mempool.rs lines 120-125). -/
def pending_count (st : MempoolState) : Nat :=
  (pendingEntries st).length

/-- `total_fees` (src/core/mempool.rs lines 127-133). -/
def total_fees (st : MempoolState) : Nat :=
  ((pendingEntries st).map (fun e => e.tx.fee)).sum

/-- `total_vsize` (src/core/mempool.rs lines 135-141). -/
def total_vsize (st : MempoolState) : Nat :=
  ((pendingEntries st).map (fun e => e.tx.vsize)).sum

/-- Count of pending entries falling in bucket `i`
(the per-bucket accumulation of src/core/mempool.rs lines 145-157). -/
def bucketCount (st : MempoolState) (i : Nat) : Nat :=
  ((pendingEntries st).filter
    (fun e => bucketFor e.tx.fee_rate FEE_BUCKETS = some i)).length

/-- `fee_histogram` (src/core/mempool.rs lines 144-163): the bucket labels
in bucket order, each with its count of pending transactions. -/
def fee_histogram (st : MempoolState) : List (String × Nat) :=
  FEE_BUCKETS.enum.map (fun p => (p.2.2.2, bucketCount st p.1))

/-- Bucket selection written from the spec's words (not from the source):
the first bucket among `[0,5), [5,10), [10,20), [20,50), [50,100),
[100,∞)` that contains the rate. -/
def specBucket (rate : ℚ) : Nat :=
  if rate < 5 then 0
  else if rate < 10 then 1
  else if rate < 20 then 2
  else if rate < 50 then 3
  else if rate < 100 then 4
  else 5

/-- The state transition of `remove_tx` (src/core/mempool.rs lines 63-68):
`Confirmed`/`Replaced` map to themselves, everything else to `Evicted`. -/
def newStateFor (reason : RemovalReason) : TxState :=
  match reason with
  | RemovalReason.Confirmed => TxState.Confirmed
  | RemovalReason.Replaced => TxState.Replaced
  | _ => TxState.Evicted

/-- `remove_tx` (src/core/mempool.rs lines 62-73): if the txid is present,
update its state and stamp the time; entries are never deleted.  `now` is
the `Utc::now()` timestamp. -/
def remove_tx (st : MempoolState) (txid : String) (reason : RemovalReason)
    (now : Int) : MempoolState :=
  { st with
    entries := st.entries.map (fun p =>
      if p.1 = txid then
        (p.1, { p.2 with state := newStateFor reason, state_changed_at := now })
      else p) }

/-! ## Tag index and persistent tag store (src/tags/mod.rs, src/db/mod.rs) -/

/-- `AddressTag` (src/tags/mod.rs lines 10-17). -/
structure AddressTag where
  address : String
  entity : String
  entity_type : String
  confidence : ℚ
  source : Option String
deriving DecidableEq

/-- The persistent `address_tags` table (src/db/schema.rs), keyed by its
primary key `address`. -/
def TagTable : Type := String → Option AddressTag

/-- `Database::insert_tag` (src/db/mod.rs lines 220-227): a SQL
`INSERT OR REPLACE` on the `address_tags` primary key, i.e. an
unconditional overwrite of whatever row is stored at that address. -/
def insert_tag (tbl : TagTable) (t : AddressTag) : TagTable :=
  fun a => if a = t.address then some t else tbl a

/-- Modelled from the spec: `insert_tag_if_higher`, the upsert used by the
cluster heuristic.  It is called from `expand_from_tx`
(src/tags/mod.rs line 179) and exercised by the tests in src/tags/mod.rs,
but its definition is not among the provided sources.  Per the spec the
persistent write is a no-op when a stored tag at that address already has
confidence greater than or equal to the new tag's, and stores the new tag
otherwise. -/
def insert_tag_if_higher (tbl : TagTable) (t : AddressTag) : TagTable :=
  match tbl t.address with
  | some old => if t.confidence ≤ old.confidence then tbl else insert_tag tbl t
  | none => insert_tag tbl t

/-- `CLUSTER_CONFIDENCE_FACTOR` (src/tags/mod.rs line 35). -/
def CLUSTER_CONFIDENCE_FACTOR : ℚ := 7 / 10

/-- The in-memory side of `TagLookup` together with its persistent store
handle (src/tags/mod.rs lines 38-42): the `HashMap` is a keyed map, and
`cluster_tags_discovered` the running counter. -/
structure TagLookupState where
  map : TagTable
  dbTags : TagTable
  cluster_tags_discovered : Nat

/-- The best (highest-confidence) existing tag among the input addresses
(src/tags/mod.rs lines 144-148): `filter_map` over the addresses followed
by `max_by` on confidence, which keeps the last of equally-maximal
candidates. -/
def bestTagAmong (m : TagTable) (addrs : List String) : Option AddressTag :=
  addrs.foldl (fun acc a =>
    match m a with
    | none => acc
    | some t =>
        match acc with
        | none => some t
        | some b => if b.confidence ≤ t.confidence then some t else some b)
    none

/-- One iteration of the tagging loop of `expand_from_tx`
(src/tags/mod.rs lines 158-185): skip addresses already tagged with at
least the derived confidence, otherwise write the derived tag to the
in-memory map and upsert it into the persistent store. -/
def expandStep (best : AddressTag) (acc : Nat × TagLookupState) (a : String) :
    Nat × TagLookupState :=
  let derived := best.confidence * CLUSTER_CONFIDENCE_FACTOR
  let skip : Bool := match acc.2.map a with
    | some existing => derived ≤ existing.confidence
    | none => false
  if skip then acc
  else
    let newTag : AddressTag :=
      ⟨a, best.entity, best.entity_type, derived, some "cluster_heuristic"⟩
    (acc.1 + 1,
     { acc.2 with
       map := insert_tag acc.2.map newTag,
       dbTags := insert_tag_if_higher acc.2.dbTags newTag })

/-- `TagLookup::expand_from_tx` (src/tags/mod.rs lines 132-193): the
common-input-ownership cluster expansion.  Returns the number of new tags
and the updated state (in-memory map, persistent table, counter). -/
def expand_from_tx (st : TagLookupState) (input_addresses : List String)
    (is_coinjoin : Bool) : Nat × TagLookupState :=
  if is_coinjoin then (0, st)
  else if input_addresses.length < 2 then (0, st)
  else
    match bestTagAmong st.map input_addresses with
    | none => (0, st)
    | some best =>
        let r := input_addresses.foldl (expandStep best) (0, st)
        (r.1, { r.2 with cluster_tags_discovered := r.2.cluster_tags_discovered + r.1 })

/-! ## Signal persistence (src/db/mod.rs, src/config.rs) -/

/-- `SignalBatchEntry` (src/db/mod.rs lines 145-155). -/
structure SignalBatchEntry where
  txid : String
  score : ℚ
  alert_level : String
  rule_scores_json : String
  to_exchange : Bool
  total_input_value : Nat
  fee_rate : ℚ
  coin_days_destroyed : Option ℚ
  block_height_seen : Nat
deriving DecidableEq

/-- `SignalConfig::default().min_score_persist` (src/config.rs line 95). -/
def min_score_persist_default : ℚ := 10

/-- Modelled from the spec: the signal-persistence step of the pipeline
orchestrator.  The spec (§4.H) has the pipeline enqueue a
`SignalBatchEntry` when the composite score reaches the configured persist
threshold; the orchestrator in the provided src/core/pipeline.rs does not
contain this step (only the `SignalBatchEntry` type and the batched store
it feeds exist under src/). -/
def enqueueIfAboveThreshold (batch : List SignalBatchEntry)
    (entry : SignalBatchEntry) (threshold : ℚ) : List SignalBatchEntry :=
  if threshold ≤ entry.score then batch ++ [entry] else batch

/-- `Database::store_signals_batch` (src/db/mod.rs lines 295-315): insert
every batched entry as a row of the `signals` table in one transaction;
the table is the list of its rows in insertion order. -/
def store_signals_batch (table : List SignalBatchEntry)
    (batch : List SignalBatchEntry) : List SignalBatchEntry :=
  table ++ batch

/-! ## Concrete sample values used by the witnesses -/

/-- An analyzed transaction with the given fee rate (other fields fixed at
plausible values). -/
def sampleTx (rate : ℚ) : AnalyzedTx :=
  ⟨"t", 200, 100, 50000, 49000, 1000, rate, 1, 2, none, none, none,
   false, 0, true, false, 0, false, 0, false, 0⟩

/-- A mempool state with three pending transactions at fee rates 3, 12 and
12 sat/vB (spec scenario S6). -/
def sampleMempool : MempoolState :=
  ⟨[("a", ⟨sampleTx 3, TxState.Pending, 0, none⟩),
    ("b", ⟨sampleTx 12, TxState.Pending, 0, none⟩),
    ("c", ⟨sampleTx 12, TxState.Pending, 0, none⟩)], []⟩

/-- A stored exchange tag with high confidence. -/
def tagHigh : AddressTag := ⟨"addr1", "Binance", "exchange", 9 / 10, some "manual"⟩

/-- A tag for the same address with lower confidence. -/
def tagLow : AddressTag := ⟨"addr1", "Binance", "exchange", 1 / 5, some "manual"⟩

/-- A signal batch entry scoring 42. -/
def sampleSignalHigh : SignalBatchEntry :=
  ⟨"tx1", 42, "Medium", "[]", false, 50000, 10, none, 0⟩

/-- A signal batch entry scoring 7. -/
def sampleSignalLow : SignalBatchEntry :=
  ⟨"tx2", 7, "Low", "[]", false, 50000, 10, none, 0⟩

end TxRadar

namespace TxRadar

/-- A helper: `computeFee` never exceeds its first argument. -/
theorem computeFee_le (totalIn totalOut : Nat) : computeFee totalIn totalOut ≤ totalIn := by
  unfold computeFee
  split
  · exact Nat.sub_le _ _
  · exact Nat.zero_le _

/-- C1 (counterexample). The claim says `fee = 0` and `fee_rate = 0` whenever
`prevouts_resolved` is false.  With two inputs of which exactly one resolves
(value 100000 sats) and total output value 40000, `prevouts_resolved` is
false yet the pipeline computes `fee = 60000` and `fee_rate = 6000`
(vsize 10), because the code branches on `total_input_value > 0`, not on
`prevouts_resolved`. -/
theorem c1_partial_resolution_fee_nonzero :
    prevoutsResolved [InputRes.resolved 100000, InputRes.failed] = false ∧
    computeFee (totalInputValue [InputRes.resolved 100000, InputRes.failed]) 40000 = 60000 ∧
    computeFeeRate (totalInputValue [InputRes.resolved 100000, InputRes.failed])
      (computeFee (totalInputValue [InputRes.resolved 100000, InputRes.failed]) 40000) 10
      = 6000 := by
  refine ⟨rfl, rfl, ?_⟩
  norm_num [totalInputValue, computeFee, computeFeeRate]

/-- C1 (amended). The assembled fee fields are driven by
`total_input_value`, not by `prevouts_resolved`: when `prevouts_resolved`
holds the claimed equalities `fee = total_input_value − total_output_value`
(saturating) and `fee_rate = fee / vsize` are indeed satisfied, but when it
fails they are zero exactly when `total_input_value = 0`; a partially
resolved transaction with positive resolved input value gets the same
nonzero fee formula. -/
theorem c1_fee_invariant_amended (inputs : List InputRes) (totalOut vsize : Nat)
    (hv : 0 < vsize) :
    (prevoutsResolved inputs = true →
      computeFee (totalInputValue inputs) totalOut = totalInputValue inputs - totalOut ∧
      computeFeeRate (totalInputValue inputs)
          (computeFee (totalInputValue inputs) totalOut) vsize
        = (computeFee (totalInputValue inputs) totalOut : ℚ) / (vsize : ℚ)) ∧
    (totalInputValue inputs = 0 →
      computeFee (totalInputValue inputs) totalOut = 0 ∧
      computeFeeRate (totalInputValue inputs)
          (computeFee (totalInputValue inputs) totalOut) vsize = 0) ∧
    (0 < totalInputValue inputs →
      computeFee (totalInputValue inputs) totalOut = totalInputValue inputs - totalOut ∧
      computeFeeRate (totalInputValue inputs)
          (computeFee (totalInputValue inputs) totalOut) vsize
        = (computeFee (totalInputValue inputs) totalOut : ℚ) / (vsize : ℚ)) := by
  rcases Nat.eq_zero_or_pos (totalInputValue inputs) with h0 | hpos
  · refine ⟨?_, ?_, ?_⟩
    · intro _
      rw [h0]
      simp [computeFee, computeFeeRate]
    · intro _
      rw [h0]
      simp [computeFee, computeFeeRate]
    · intro h
      omega
  · refine ⟨?_, ?_, ?_⟩
    · intro _
      constructor
      · simp [computeFee, hpos]
      · simp [computeFeeRate, hpos, hv]
    · intro h
      omega
    · intro _
      constructor
      · simp [computeFee, hpos]
      · simp [computeFeeRate, hpos, hv]

/-- C1 (witness). The amended theorem evaluated on the counterexample
input: one resolved input of 100000 sats, one failed, output total 40000,
vsize 10. -/
theorem c1_fee_invariant_amended_witness :
    0 < 10 ∧ 0 < totalInputValue [InputRes.resolved 100000, InputRes.failed] ∧
    (computeFee (totalInputValue [InputRes.resolved 100000, InputRes.failed]) 40000
        = totalInputValue [InputRes.resolved 100000, InputRes.failed] - 40000 ∧
      computeFeeRate (totalInputValue [InputRes.resolved 100000, InputRes.failed])
          (computeFee (totalInputValue [InputRes.resolved 100000, InputRes.failed]) 40000) 10
        = (computeFee (totalInputValue [InputRes.resolved 100000, InputRes.failed]) 40000 : ℚ)
            / (10 : ℚ)) :=
  ⟨by decide, by decide,
   (c1_fee_invariant_amended [InputRes.resolved 100000, InputRes.failed] 40000 10
      (by decide)).2.2 (by decide)⟩

/-- C9. The pipeline fee computation saturates: for any combination of
input and output totals representable as `u64`, the result stays in `u64`
range (no wraparound), and when the resolved input total is positive but
smaller than the output total the fee saturates to 0. -/
theorem c9_fee_saturates (totalIn totalOut : Nat)
    (hin : totalIn < 2 ^ 64) (_hout : totalOut < 2 ^ 64) :
    computeFee totalIn totalOut < 2 ^ 64 ∧
    (0 < totalIn → totalIn < totalOut → computeFee totalIn totalOut = 0) := by
  constructor
  · exact lt_of_le_of_lt (computeFee_le totalIn totalOut) hin
  · intro hpos hlt
    simp only [computeFee, if_pos hpos]
    omega

/-- C9 (witness). Saturation at a concrete partially-resolved input:
resolved input total 100, output total 250. -/
theorem c9_fee_saturates_witness :
    (100 : Nat) < 2 ^ 64 ∧ (250 : Nat) < 2 ^ 64 ∧ computeFee 100 250 = 0 :=
  ⟨by norm_num, by norm_num,
   (c9_fee_saturates 100 250 (by norm_num) (by norm_num)).2 (by norm_num) (by norm_num)⟩

/-- C3. On any rule-score list whose entries satisfy
`weighted_score = raw_value * weight` (as `SignalEngine::score` builds
them), `compute_composite` returns 0 when the sum of absolute weights is
0, and otherwise `clamp((Σ raw × weight) / (Σ |weight|) × 100, 0, 100)`. -/
theorem c3_compute_composite_spec (scores : List RuleScore)
    (h : ∀ s ∈ scores, s.weighted_score = s.raw_value * s.weight) :
    compute_composite scores =
      if (scores.map (fun s => |s.weight|)).sum = 0 then 0
      else fclamp ((scores.map (fun s => s.raw_value * s.weight)).sum
            / (scores.map (fun s => |s.weight|)).sum * 100) 0 100 := by
  have hmap : scores.map (fun s => s.weighted_score)
      = scores.map (fun s => s.raw_value * s.weight) :=
    List.map_congr_left h
  unfold compute_composite
  rw [hmap]

/-- C3 (witness). A two-rule list with half raw value at weight 10 and a
full CoinJoin penalty at weight −6: composite is
`clamp((5 − 6) / 16 × 100, 0, 100) = 0`. -/
theorem c3_compute_composite_spec_witness :
    (∀ s ∈ [(⟨"a", 1/2, 10, 5⟩ : RuleScore), ⟨"cj", 1, -6, -6⟩],
        s.weighted_score = s.raw_value * s.weight) ∧
    compute_composite [(⟨"a", 1/2, 10, 5⟩ : RuleScore), ⟨"cj", 1, -6, -6⟩] =
      if (([(⟨"a", 1/2, 10, 5⟩ : RuleScore), ⟨"cj", 1, -6, -6⟩].map
            (fun s => |s.weight|)).sum = 0) then 0
      else fclamp (([(⟨"a", 1/2, 10, 5⟩ : RuleScore), ⟨"cj", 1, -6, -6⟩].map
            (fun s => s.raw_value * s.weight)).sum
          / ([(⟨"a", 1/2, 10, 5⟩ : RuleScore), ⟨"cj", 1, -6, -6⟩].map
            (fun s => |s.weight|)).sum * 100) 0 100 :=
  ⟨by intro s hs; fin_cases hs <;> norm_num,
   c3_compute_composite_spec [⟨"a", 1/2, 10, 5⟩, ⟨"cj", 1, -6, -6⟩]
     (by intro s hs; fin_cases hs <;> norm_num)⟩

/-- A helper: `fclamp x lo hi` lies in `[lo, hi]` whenever `lo ≤ hi`. -/
theorem fclamp_mem (x lo hi : ℚ) (h : lo ≤ hi) :
    lo ≤ fclamp x lo hi ∧ fclamp x lo hi ≤ hi := by
  unfold fclamp
  split_ifs with h1 h2
  · exact ⟨le_refl _, h⟩
  · exact ⟨h, le_refl _⟩
  · constructor <;> linarith

/-- A helper: `compute_composite` always lands in `[0, 100]`. -/
theorem compute_composite_mem (scores : List RuleScore) :
    0 ≤ compute_composite scores ∧ compute_composite scores ≤ 100 := by
  unfold compute_composite
  dsimp only
  split
  · norm_num
  · exact fclamp_mem _ 0 100 (by norm_num)

/-- A helper: two distinct values cannot together occur more often than the
length of the list. -/
theorem count_pair_le_length (l : List Nat) (a b : Nat) (h : a ≠ b) :
    l.count a + l.count b ≤ l.length := by
  induction l with
  | nil => simp
  | cons x xs ih =>
    simp only [List.count_cons, List.length_cons, beq_iff_eq]
    split_ifs <;> omega

/-- A helper: once the best-so-far count is 5 and every remaining candidate
has count at most 4, the selection fold keeps its accumulator. -/
theorem bestStep_foldl_keep (outs : List Nat) :
    ∀ (l : List Nat) (acc : Nat × Nat), acc.2 = 5 →
      (∀ w ∈ l, outs.count w ≤ 4) → l.foldl (bestStep outs) acc = acc
  | [], _, _, _ => rfl
  | x :: xs, acc, hacc, hl => by
    have hx : outs.count x ≤ 4 := hl x (List.mem_cons_self x xs)
    have hstep : bestStep outs acc x = acc := by
      unfold bestStep
      rw [if_neg]
      rintro ⟨-, h2⟩
      omega
    rw [List.foldl_cons, hstep]
    exact bestStep_foldl_keep outs xs acc hacc
      (fun w hw => hl w (List.mem_cons_of_mem x hw))

/-- A helper: over candidates of count at most 4, the selection fold keeps
its best-so-far count at most 4. -/
theorem bestStep_foldl_low (outs : List Nat) :
    ∀ (l : List Nat) (acc : Nat × Nat), acc.2 ≤ 4 →
      (∀ w ∈ l, outs.count w ≤ 4) → (l.foldl (bestStep outs) acc).2 ≤ 4
  | [], _, hacc, _ => hacc
  | x :: xs, acc, hacc, hl => by
    rw [List.foldl_cons]
    refine bestStep_foldl_low outs xs _ ?_ (fun w hw => hl w (List.mem_cons_of_mem x hw))
    unfold bestStep
    split
    · exact hl x (List.mem_cons_self x xs)
    · exact hacc

/-- A helper: when some value occurs exactly 5 times, no value occurs more
often, and the list is shorter than 10, the selection of
src/signals/coinjoin.rs lines 54-66 returns exactly that value with
count 5 (the maximum is then unique, so the tally's unspecified iteration
order cannot matter). -/
theorem bestEqualOutput_eq (outputs : List Nat) (v : Nat)
    (hv5 : outputs.count v = 5)
    (hlen : outputs.length < 10) :
    bestEqualOutput outputs = (v, 5) := by
  have hvmem : v ∈ outputs := by
    have : 0 < outputs.count v := by omega
    exact List.count_pos_iff.mp this
  have hsmall : ∀ w ∈ outputs, w ≠ v → outputs.count w ≤ 4 := by
    intro w hw hne
    have h1 := count_pair_le_length outputs w v hne
    omega
  have hvd : v ∈ outputs.dedup := List.mem_dedup.mpr hvmem
  obtain ⟨l₁, l₂, hsplit⟩ := List.append_of_mem hvd
  have hnd : outputs.dedup.Nodup := outputs.nodup_dedup
  rw [hsplit] at hnd
  have hv1 : v ∉ l₁ := fun hmem =>
    (List.nodup_append.mp hnd).2.2 hmem (List.mem_cons_self v l₂)
  have hv2 : v ∉ l₂ :=
    (List.nodup_cons.mp (List.Nodup.of_append_right hnd)).1
  have hsub : ∀ w, w ∈ outputs.dedup → w ∈ outputs := fun w hw =>
    List.mem_dedup.mp hw
  unfold bestEqualOutput
  rw [hsplit, List.foldl_append, List.foldl_cons]
  have hl₁ : ∀ w ∈ l₁, outputs.count w ≤ 4 := by
    intro w hw
    refine hsmall w (hsub w ?_) ?_
    · rw [hsplit]; exact List.mem_append_left _ hw
    · rintro rfl; exact hv1 hw
  have hacc1 : (l₁.foldl (bestStep outputs) (0, 0)).2 ≤ 4 :=
    bestStep_foldl_low outputs l₁ (0, 0) (by norm_num) hl₁
  have hstepv : ∀ acc : Nat × Nat, acc.2 ≤ 4 → bestStep outputs acc v = (v, 5) := by
    intro acc hacc
    unfold bestStep
    rw [hv5, if_pos ⟨by norm_num, by omega⟩]
  rw [hstepv _ hacc1]
  refine bestStep_foldl_keep outputs l₂ (v, 5) rfl ?_
  intro w hw
  refine hsmall w (hsub w ?_) ?_
  · rw [hsplit]; exact List.mem_append_right _ (List.mem_cons_of_mem _ hw)
  · rintro rfl; exact hv2 hw

/-- C7. On a transaction whose most frequent output value occurs exactly 5
times, is one of the Whirlpool pool denominations, makes up strictly more
than half of the outputs, with at least 5 inputs and 5 outputs,
`detect_coinjoin` reports a CoinJoin with pattern `WhirlpoolPool` and
confidence 0.95. -/
theorem c7_whirlpool_detected (inputCount : Nat) (outputs : List Nat) (v : Nat)
    (hv5 : outputs.count v = 5)
    (hpool : v ∈ WHIRLPOOL_POOLS)
    (_hmax : ∀ w ∈ outputs, outputs.count w ≤ 5)
    (hhalf : outputs.length < 2 * 5)
    (hin : 5 ≤ inputCount)
    (hout : 5 ≤ outputs.length) :
    detect_coinjoin inputCount outputs
      = ⟨true, 95 / 100, CoinJoinPattern.WhirlpoolPool⟩ := by
  have hb := bestEqualOutput_eq outputs v hv5 (by omega)
  have hlpos : (0 : ℚ) < (outputs.length : ℚ) := by
    exact_mod_cast Nat.lt_of_lt_of_le (by norm_num) hout
  have hratio : ¬ ((5 : ℚ) / (outputs.length : ℚ) ≤ 1 / 2) := by
    rw [div_le_div_iff₀ hlpos (by norm_num)]
    intro hcon
    have h10 : (10 : ℚ) ≤ (outputs.length : ℚ) := by linarith
    have : (10 : Nat) ≤ outputs.length := by exact_mod_cast h10
    omega
  simp only [detect_coinjoin, hb]
  rw [if_neg (by omega : ¬ (inputCount < 3 ∨ outputs.length < 3))]
  rw [if_neg (by omega : ¬ ((v, 5).2 < 3))]
  rw [if_neg (by exact_mod_cast hratio)]
  rw [if_pos ⟨by trivial, hpool, hin, hout⟩]

/-- C7 (witness). Spec scenario S2: 5 inputs, outputs `[1000000 ×5, 50000]`
(the 0.01 BTC Whirlpool pool plus change). -/
theorem c7_whirlpool_detected_witness :
    List.count 1000000 [1000000, 1000000, 1000000, 1000000, 1000000, 50000] = 5 ∧
    detect_coinjoin 5 [1000000, 1000000, 1000000, 1000000, 1000000, 50000]
      = ⟨true, 95 / 100, CoinJoinPattern.WhirlpoolPool⟩ :=
  ⟨by decide,
   c7_whirlpool_detected 5 [1000000, 1000000, 1000000, 1000000, 1000000, 50000] 1000000
     (by decide) (by decide) (by decide) (by decide) (by decide) (by decide)⟩

/-- A helper: for a finite rate in `[0, f64::MAX)` the source's first-match
bucket scan picks exactly the bucket the spec describes. -/
theorem bucketFor_eq_specBucket (rate : ℚ) (h0 : 0 ≤ rate) (hM : rate < f64MAX) :
    bucketFor rate FEE_BUCKETS = some (specBucket rate) := by
  by_cases h5 : rate < 5
  · simp [bucketFor, FEE_BUCKETS, specBucket, h0, h5]
  · have h5' := not_lt.mp h5
    by_cases h10 : rate < 10
    · simp [bucketFor, FEE_BUCKETS, specBucket, h5, h5', h10]
    · have h10' := not_lt.mp h10
      by_cases h20 : rate < 20
      · simp [bucketFor, FEE_BUCKETS, specBucket, h5, h10, h10', h20, not_lt_of_ge h5']
      · have h20' := not_lt.mp h20
        by_cases h50 : rate < 50
        · simp [bucketFor, FEE_BUCKETS, specBucket, h5, h10, h20, h20', h50]
        · have h50' := not_lt.mp h50
          by_cases h100 : rate < 100
          · simp [bucketFor, FEE_BUCKETS, specBucket, h5, h10, h20, h50, h50', h100]
          · have h100' := not_lt.mp h100
            simp [bucketFor, FEE_BUCKETS, specBucket, h5, h10, h20, h50, h100, h100', hM]

/-- A helper: the spec's bucket index is below 6. -/
theorem specBucket_lt_six (rate : ℚ) : specBucket rate < 6 := by
  unfold specBucket
  split_ifs <;> norm_num

/-- A helper: if an index function lands below 6 on every element, the six
index-classes partition the list. -/
theorem length_filter_partition {α : Type} (f : α → Option Nat) :
    ∀ l : List α, (∀ e ∈ l, ∃ j, j < 6 ∧ f e = some j) →
      (l.filter (fun e => f e = some 0)).length +
      (l.filter (fun e => f e = some 1)).length +
      (l.filter (fun e => f e = some 2)).length +
      (l.filter (fun e => f e = some 3)).length +
      (l.filter (fun e => f e = some 4)).length +
      (l.filter (fun e => f e = some 5)).length = l.length
  | [], _ => rfl
  | e :: es, hl => by
    obtain ⟨j, hj6, hje⟩ := hl e (List.mem_cons_self e es)
    have ih := length_filter_partition f es
      (fun x hx => hl x (List.mem_cons_of_mem e hx))
    simp only [List.filter_cons, List.length_cons]
    interval_cases j <;> simp [hje] <;> omega

/-- C6. For a mempool state whose pending fee rates are finite and
nonnegative (as every pipeline-produced rate is), `fee_histogram` emits
exactly the six labels in bucket order, assigns any such rate to the first
spec bucket containing it (rate 0 included, in bucket 0), and its counts
sum to `pending_count`. -/
theorem c6_fee_histogram (st : MempoolState)
    (h : ∀ p ∈ st.entries, p.2.state = TxState.Pending →
      0 ≤ p.2.tx.fee_rate ∧ p.2.tx.fee_rate < f64MAX) :
    (fee_histogram st).map Prod.fst
        = ["1-5", "5-10", "10-20", "20-50", "50-100", "100+"] ∧
    (∀ rate : ℚ, 0 ≤ rate → rate < f64MAX →
      bucketFor rate FEE_BUCKETS = some (specBucket rate)) ∧
    ((fee_histogram st).map Prod.snd).sum = pending_count st := by
  refine ⟨rfl, fun rate h0 hM => bucketFor_eq_specBucket rate h0 hM, ?_⟩
  have key : ∀ e ∈ pendingEntries st,
      ∃ j, j < 6 ∧ bucketFor e.tx.fee_rate FEE_BUCKETS = some j := by
    intro e he
    rw [pendingEntries, List.mem_filter] at he
    obtain ⟨hmem, hpend⟩ := he
    obtain ⟨p, hp, rfl⟩ := List.mem_map.mp hmem
    have hb := h p hp (by simpa using hpend)
    exact ⟨specBucket p.2.tx.fee_rate, specBucket_lt_six _,
      bucketFor_eq_specBucket _ hb.1 hb.2⟩
  have hpart := length_filter_partition
    (fun e => bucketFor e.tx.fee_rate FEE_BUCKETS) (pendingEntries st) key
  have hred : ((fee_histogram st).map Prod.snd).sum
      = bucketCount st 0 + (bucketCount st 1 + (bucketCount st 2 +
        (bucketCount st 3 + (bucketCount st 4 + (bucketCount st 5 + 0))))) := rfl
  rw [hred]
  simp only [bucketCount, pending_count] at *
  omega

/-- C8. The composite score produced by `SignalEngine::score` is bounded in
`[0, 100]` for every transaction, weight-override map and evaluation time.
In this exact-rational model of `f64` every value is finite, so the
spec's finiteness condition is automatic; the content is the bound, which
the final clamp enforces in both branches of `compute_composite`. -/
theorem c8_composite_score_bounded (overrides : String → Option ℚ) (now : Int)
    (tx : AnalyzedTx) :
    0 ≤ engineComposite overrides now tx ∧ engineComposite overrides now tx ≤ 100 :=
  compute_composite_mem (engineRuleScores overrides now tx)

/-- C6 (witness). Spec scenario S6: three pending transactions at fee
rates 3, 12, 12 sat/vB; the histogram counts sum to the pending count. -/
theorem c6_fee_histogram_witness :
    ((fee_histogram sampleMempool).map Prod.snd).sum = pending_count sampleMempool :=
  (c6_fee_histogram sampleMempool
    (by intro p hp; fin_cases hp <;> intro hpend <;>
        norm_num [sampleTx, f64MAX])).2.2

/-- C10. Calling `remove_tx` with a txid absent from the entry map is a
complete no-op: the state is unchanged, and in particular pending count,
total fees, total vsize and the fee histogram all keep their values. -/
theorem c10_remove_absent_noop (st : MempoolState) (txid : String)
    (reason : RemovalReason) (now : Int)
    (h : ∀ p ∈ st.entries, p.1 ≠ txid) :
    remove_tx st txid reason now = st ∧
    pending_count (remove_tx st txid reason now) = pending_count st ∧
    total_fees (remove_tx st txid reason now) = total_fees st ∧
    total_vsize (remove_tx st txid reason now) = total_vsize st ∧
    fee_histogram (remove_tx st txid reason now) = fee_histogram st := by
  have heq : remove_tx st txid reason now = st := by
    unfold remove_tx
    have h2 : ∀ p ∈ st.entries,
        (if p.1 = txid then
          (p.1, { p.2 with state := newStateFor reason, state_changed_at := now })
         else p) = p := by
      intro p hp
      rw [if_neg (h p hp)]
    rw [List.map_congr_left h2]
    simp
  exact ⟨heq, by rw [heq], by rw [heq], by rw [heq], by rw [heq]⟩

/-- C10 (witness). Removing the absent txid `"zz"` from the three-entry
sample mempool leaves the state untouched. -/
theorem c10_remove_absent_noop_witness :
    (∀ p ∈ sampleMempool.entries, p.1 ≠ "zz") ∧
    remove_tx sampleMempool "zz" RemovalReason.Replaced 5 = sampleMempool :=
  ⟨by decide,
   (c10_remove_absent_noop sampleMempool "zz" RemovalReason.Replaced 5 (by decide)).1⟩

/-- C5. When the CoinJoin flag is true, `expand_from_tx` returns 0 and
performs no writes at all: the in-memory tag map, the persistent tag
table, and the discovery counter are all left unchanged. -/
theorem c5_coinjoin_guard (st : TagLookupState) (input_addresses : List String) :
    (expand_from_tx st input_addresses true).1 = 0 ∧
    (expand_from_tx st input_addresses true).2.map = st.map ∧
    (expand_from_tx st input_addresses true).2.dbTags = st.dbTags ∧
    (expand_from_tx st input_addresses true).2 = st := by
  simp [expand_from_tx]

/-- C4 (counterexample). The claim says every tag write leaves the stored
confidence no lower than before.  `Database::insert_tag` is a plain
`INSERT OR REPLACE`: storing a 0.9-confidence tag for `addr1` and then
inserting a 0.2-confidence tag for the same address leaves the stored
confidence at 0.2 < 0.9. -/
theorem c4_insert_lower_decreases :
    insert_tag (insert_tag (fun _ => none) tagHigh) tagLow "addr1" = some tagLow ∧
    tagLow.confidence < tagHigh.confidence := by
  constructor
  · simp [insert_tag, tagLow, tagHigh]
  · norm_num [tagLow, tagHigh]

/-- C4 (amended). Only the cluster-heuristic upsert path
(`insert_tag_if_higher`, as used by `expand_from_tx`) is guaranteed
non-decreasing: whatever it stores at an address has confidence at least
that of the tag stored there before.  Direct `insert_tag` and the CSV bulk
load (which calls `insert_tag` per row) overwrite unconditionally and can
lower the stored confidence. -/
theorem c4_cluster_upsert_monotone (tbl : TagTable) (t : AddressTag) (a : String)
    (old Tnew : AddressTag)
    (hold : tbl a = some old) (hnew : insert_tag_if_higher tbl t a = some Tnew) :
    old.confidence ≤ Tnew.confidence := by
  cases hm : tbl t.address with
  | none =>
      simp only [insert_tag_if_higher, hm, insert_tag] at hnew
      by_cases ha : a = t.address
      · rw [ha, hm] at hold
        cases hold
      · rw [if_neg ha, hold] at hnew
        have : old = Tnew := Option.some.inj hnew
        rw [this]
  | some stored =>
      simp only [insert_tag_if_higher, hm] at hnew
      by_cases hc : t.confidence ≤ stored.confidence
      · rw [if_pos hc, hold] at hnew
        have : old = Tnew := Option.some.inj hnew
        rw [this]
      · rw [if_neg hc] at hnew
        simp only [insert_tag] at hnew
        by_cases ha : a = t.address
        · rw [if_pos ha] at hnew
          have hnt : t = Tnew := Option.some.inj hnew
          have hos : old = stored := by
            rw [ha, hm] at hold
            exact (Option.some.inj hold).symm
          rw [hos, ← hnt]
          linarith [not_le.mp hc]
        · rw [if_neg ha, hold] at hnew
          have : old = Tnew := Option.some.inj hnew
          rw [this]

/-- C4 (amended, witness). Upserting the 0.9-confidence tag over a stored
0.2-confidence tag via the cluster path keeps confidence non-decreasing. -/
theorem c4_cluster_upsert_monotone_witness :
    insert_tag (fun _ => none) tagLow "addr1" = some tagLow ∧
    insert_tag_if_higher (insert_tag (fun _ => none) tagLow) tagHigh "addr1"
      = some tagHigh ∧
    tagLow.confidence ≤ tagHigh.confidence :=
  ⟨by simp [insert_tag, tagLow],
   by norm_num [insert_tag_if_higher, insert_tag, tagLow, tagHigh],
   c4_cluster_upsert_monotone (insert_tag (fun _ => none) tagLow) tagHigh "addr1"
     tagLow tagHigh
     (by simp [insert_tag, tagLow])
     (by norm_num [insert_tag_if_higher, insert_tag, tagLow, tagHigh])⟩

/-- C2. Spec-modelled persistence step: a scored transaction at or above
the persist threshold is enqueued and, once the batch is flushed through
`store_signals_batch`, appears as a row of the signals table; one scoring
below the threshold leaves the batch untouched and is never enqueued. -/
theorem c2_signal_persistence (table batch : List SignalBatchEntry)
    (entry : SignalBatchEntry) (threshold : ℚ) :
    (threshold ≤ entry.score →
      entry ∈ store_signals_batch table (enqueueIfAboveThreshold batch entry threshold)) ∧
    (entry.score < threshold →
      enqueueIfAboveThreshold batch entry threshold = batch) := by
  constructor
  · intro h
    simp [store_signals_batch, enqueueIfAboveThreshold, h]
  · intro h
    simp [enqueueIfAboveThreshold, not_le.mpr h]

/-- C2 (witness). With the default persist threshold 10, a score-42 signal
reaches the signals table while a score-7 signal is not enqueued. -/
theorem c2_signal_persistence_witness :
    min_score_persist_default ≤ sampleSignalHigh.score ∧
    sampleSignalHigh ∈ store_signals_batch []
      (enqueueIfAboveThreshold [] sampleSignalHigh min_score_persist_default) ∧
    sampleSignalLow.score < min_score_persist_default ∧
    enqueueIfAboveThreshold [] sampleSignalLow min_score_persist_default = [] :=
  ⟨by norm_num [sampleSignalHigh, min_score_persist_default],
   (c2_signal_persistence [] [] sampleSignalHigh min_score_persist_default).1
     (by norm_num [sampleSignalHigh, min_score_persist_default]),
   by norm_num [sampleSignalLow, min_score_persist_default],
   (c2_signal_persistence [] [] sampleSignalLow min_score_persist_default).2
     (by norm_num [sampleSignalLow, min_score_persist_default])⟩

end TxRadar
